import Mathlib

/-!
# Verification of the set-associative cache simulator (`cache.py`)

Shallow embedding of the cache model: `CacheLine`, `CacheSet` (with its LRU
counters), `Cache` (geometry derivation and address decomposition via binary
string slicing), and the trace simulation loop.  Python-level failures
(`ValueError` from `int('', 2)`, `ZeroDivisionError`, `math.log` domain
errors, list index errors) are modelled with `Option`.
-/

namespace CacheSim

/-- A cache line: `valid` flag and optional stored tag (`CacheLine.__init__`). -/
structure CacheLine where
  valid : Bool
  tag : Option Nat
deriving Repr, DecidableEq

/-- A cache set: the lines plus one LRU recency counter per line
(`CacheSet.__init__` keeps them in two parallel lists). -/
structure CacheSet where
  lines : List CacheLine
  lru_counter : List Nat
deriving Repr, DecidableEq

/-- `CacheSet.__init__(associativity)`: all lines invalid, all counters 0. -/
def CacheSet.init (associativity : Nat) : CacheSet :=
  { lines := List.replicate associativity { valid := false, tag := none }
    lru_counter := List.replicate associativity 0 }

/-- Python `max` over a list of naturals; every use in the source is on a
nonempty list, where `foldl max 0` agrees with Python. -/
def listMax (l : List Nat) : Nat := l.foldl max 0

/-- Python `min` over a nonempty list of naturals. -/
def listMin (l : List Nat) : Nat :=
  match l with
  | [] => 0
  | x :: xs => xs.foldl min x

/-- Index of the first line that is valid and stores `t` (the scan in
`CacheSet.access`). -/
def hitIdx (lines : List CacheLine) (t : Nat) : Option Nat :=
  lines.findIdx? (fun line => line.valid && line.tag == some t)

/-- `CacheSet.access(tag)`: on a hit bump that line's counter to
`max(lru_counter) + 1` and return `True`; otherwise return `False` with no
mutation. -/
def CacheSet.access (s : CacheSet) (t : Nat) : Bool × CacheSet :=
  match hitIdx s.lines t with
  | some i => (true, { s with lru_counter := s.lru_counter.set i (listMax s.lru_counter + 1) })
  | none => (false, s)

/-- `self.lru_counter.index(min(self.lru_counter))`: the lowest index holding
the minimum counter value. -/
def lruIndex (s : CacheSet) : Nat := s.lru_counter.indexOf (listMin s.lru_counter)

/-- `CacheSet.replace(tag)`: overwrite the line at `lruIndex` with a valid
line holding `tag` and give it counter `max(lru_counter) + 1` (the maximum is
taken over the counters before the update, as in the source). -/
def CacheSet.replace (s : CacheSet) (t : Nat) : CacheSet :=
  { lines := s.lines.set (lruIndex s) { valid := true, tag := some t }
    lru_counter := s.lru_counter.set (lruIndex s) (listMax s.lru_counter + 1) }

/-- States of one set reachable from `CacheSet.init` by any sequence of
probes (`CacheSet.access`) and insertions (`CacheSet.replace`). -/
inductive CacheSet.Reachable (associativity : Nat) : CacheSet → Prop
  | init : CacheSet.Reachable associativity (CacheSet.init associativity)
  | probe (s : CacheSet) (t : Nat) :
      CacheSet.Reachable associativity s →
      CacheSet.Reachable associativity (s.access t).2
  | insert (s : CacheSet) (t : Nat) :
      CacheSet.Reachable associativity s →
      CacheSet.Reachable associativity (s.replace t)

/-- Floor of the base-2 logarithm, fuel-driven so that concrete values
reduce. -/
def intLog2Aux : Nat → Nat → Nat
  | 0, _ => 0
  | fuel + 1, n => if 2 ≤ n then intLog2Aux fuel (n / 2) + 1 else 0

/-- Models Python `int(math.log(n, 2))` for `n ≥ 1`: the floor of the base-2
logarithm (exact on the powers of two and on every concrete value used in the
claims below). -/
def intLog2 (n : Nat) : Nat := intLog2Aux n n

/-- The cache: geometry derived in `Cache.__init__` plus the per-set state.
`tag_length` is an `Int` because the Python subtraction `32 - index - offset`
may go negative. -/
structure Cache where
  cache_size : Nat
  block_size : Nat
  associativity : Nat
  num_blocks : Nat
  num_sets : Nat
  index_length : Nat
  byte_offset_length : Nat
  tag_length : Int
  cache_sets : List CacheSet
deriving Repr, DecidableEq

/-- `Cache.__init__(cache_size_kb, block_size, associativity)`.  Returns
`none` exactly where Python raises: division by a zero `block_size` or
`associativity`, and `math.log(0, 2)` when `num_sets` comes out 0.  No other
validation is performed by the source. -/
def Cache.init (cache_size_kb block_size associativity : Nat) : Option Cache :=
  if block_size = 0 then none
  else if associativity = 0 then none
  else
    let cache_size := cache_size_kb * 1024
    let num_blocks := cache_size / block_size
    let num_sets := num_blocks / associativity
    if num_sets = 0 then none
    else some
      { cache_size := cache_size
        block_size := block_size
        associativity := associativity
        num_blocks := num_blocks
        num_sets := num_sets
        index_length := intLog2 num_sets
        byte_offset_length := intLog2 block_size
        tag_length := 32 - (intLog2 num_sets : Int) - (intLog2 block_size : Int)
        cache_sets := List.replicate num_sets (CacheSet.init associativity) }

/-- Value of a big-endian binary digit string, as Python `int(s, 2)` computes
it on a nonempty all-digit string. -/
def bitsVal (s : List Bool) : Nat :=
  s.foldl (fun acc b => 2 * acc + (if b then 1 else 0)) 0

/-- Python `int(s, 2)`: raises `ValueError` on the empty string. -/
def intBase2 (s : List Bool) : Option Nat :=
  match s with
  | [] => none
  | _ :: _ => some (bitsVal s)

/-- Binary digits of `n`, most significant first, `[]` for 0; the fuel makes
the recursion structural so that concrete values reduce. -/
def natBitsAux : Nat → Nat → List Bool
  | 0, _ => []
  | fuel + 1, n => if n = 0 then [] else natBitsAux fuel (n / 2) ++ [decide (n % 2 = 1)]

/-- Python `bin(n)[2:]` for `n ≥ 0`. -/
def pyBin (n : Nat) : List Bool :=
  if n = 0 then [false] else natBitsAux n n

/-- Python `.zfill(32)`: left-pad with zeros up to width 32 (strings already
longer than 32 are returned unchanged). -/
def zfill32 (s : List Bool) : List Bool :=
  List.replicate (32 - s.length) false ++ s

/-- Clamp a Python slice endpoint into `[0, len]`. -/
def pyIdx (len : Nat) (i : Int) : Nat :=
  if i < 0 then ((len : Int) + i).toNat else min i.toNat len

/-- Python `s[a:b]`. -/
def pySlice (s : List Bool) (a b : Int) : List Bool :=
  (s.take (pyIdx s.length b)).drop (pyIdx s.length a)

/-- `Cache.get_set_index`: `address[left : left + index_length]` with
`left = tag_length`. -/
def Cache.get_set_index (c : Cache) (address : List Bool) : List Bool :=
  pySlice address c.tag_length (c.tag_length + c.index_length)

/-- `Cache.get_tag`: `address[: tag_length]`. -/
def Cache.get_tag (c : Cache) (address : List Bool) : List Bool :=
  pySlice address 0 c.tag_length

/-- `Cache.access(address)` on the 32-character binary string.  `none` models
the `ValueError` of `int('', 2)` on an empty slice (tag parsed first, then
set index, then the list lookup, in source order). -/
def Cache.access (c : Cache) (address : List Bool) : Option (Bool × Cache) :=
  match intBase2 (c.get_tag address) with
  | none => none
  | some t =>
    match intBase2 (c.get_set_index address) with
    | none => none
    | some si =>
      match c.cache_sets[si]? with
      | none => none
      | some cache_set =>
        if (cache_set.access t).1 then
          some (true, { c with cache_sets := c.cache_sets.set si (cache_set.access t).2 })
        else
          some (false, { c with cache_sets := c.cache_sets.set si (cache_set.replace t) })

/-- One iteration of the loop in `simulate_cache`: a raised error aborts the
run. -/
def simStep (st : Option (Cache × Nat × Nat)) (address : Nat) : Option (Cache × Nat × Nat) :=
  match st with
  | none => none
  | some (c, hits, misses) =>
    match c.access (zfill32 (pyBin address)) with
    | none => none
    | some (true, c2) => some (c2, hits + 1, misses)
    | some (false, c2) => some (c2, hits, misses + 1)

/-- `simulate_cache` with the trace already parsed into its list of
addresses: build the cache, replay the addresses in order, return
`(hits, misses)`. -/
def simulate_cache (addresses : List Nat) (cache_size_kb block_size associativity : Nat) :
    Option (Nat × Nat) :=
  match Cache.init cache_size_kb block_size associativity with
  | none => none
  | some c0 => (addresses.foldl simStep (some (c0, 0, 0))).map (fun st => (st.2.1, st.2.2))

/-- Structural invariant maintained by every probe and insert: the two
parallel lists keep length `associativity`, and a line is invalid exactly
when its recency counter is 0. -/
def CacheSet.WF (associativity : Nat) (s : CacheSet) : Prop :=
  s.lines.length = associativity ∧ s.lru_counter.length = associativity ∧
  ∀ i (h1 : i < s.lines.length) (h2 : i < s.lru_counter.length),
    (s.lines[i].valid = false ↔ s.lru_counter[i] = 0)

/-- A concrete all-valid two-line set used to witness claim C1. -/
def sampleSetC1 : CacheSet :=
  { lines := [{ valid := true, tag := some 1 }, { valid := true, tag := some 2 }]
    lru_counter := [2, 1] }

/-! ### The fuel-driven log matches `Nat.log2` -/

theorem intLog2Aux_eq_log2 : ∀ fuel n, n ≤ fuel → intLog2Aux fuel n = Nat.log2 n := by
  intro fuel
  induction fuel with
  | zero =>
    intro n hn
    interval_cases n
    simp [intLog2Aux, Nat.log2]
  | succ fuel ih =>
    intro n hn
    rw [intLog2Aux, Nat.log2]
    by_cases h2 : 2 ≤ n
    · rw [if_pos h2, if_pos h2, ih (n / 2)]
      have : n / 2 < n := Nat.div_lt_self (by omega) (by omega)
      omega
    · rw [if_neg h2, if_neg h2]

theorem intLog2_eq_log2 (n : Nat) : intLog2 n = Nat.log2 n :=
  intLog2Aux_eq_log2 n n le_rfl

/-! ### Facts about `listMin`, `listMax` and `List.indexOf` -/

theorem foldl_min_le_init (l : List Nat) (a : Nat) : l.foldl min a ≤ a := by
  induction l generalizing a with
  | nil => exact le_rfl
  | cons x xs ih =>
    calc (x :: xs).foldl min a = xs.foldl min (min a x) := rfl
    _ ≤ min a x := ih _
    _ ≤ a := Nat.min_le_left _ _

theorem foldl_min_le_mem (l : List Nat) (a : Nat) (x : Nat) (hx : x ∈ l) :
    l.foldl min a ≤ x := by
  induction l generalizing a with
  | nil => cases hx
  | cons y ys ih =>
    rcases List.mem_cons.mp hx with rfl | hx
    · calc (x :: ys).foldl min a = ys.foldl min (min a x) := rfl
      _ ≤ min a x := foldl_min_le_init _ _
      _ ≤ x := Nat.min_le_right _ _
    · exact ih _ hx

theorem foldl_min_mem_or (l : List Nat) (a : Nat) :
    l.foldl min a = a ∨ l.foldl min a ∈ l := by
  induction l generalizing a with
  | nil => exact Or.inl rfl
  | cons x xs ih =>
    rcases ih (min a x) with h | h
    · rcases Nat.le_total a x with hax | hxa
      · left
        rw [List.foldl_cons, h, Nat.min_eq_left hax]
      · right
        rw [List.foldl_cons, h, Nat.min_eq_right hxa]
        exact List.mem_cons_self _ _
    · exact Or.inr (List.mem_cons_of_mem _ h)

theorem listMin_le (l : List Nat) (x : Nat) (hx : x ∈ l) : listMin l ≤ x := by
  cases l with
  | nil => cases hx
  | cons y ys =>
    rcases List.mem_cons.mp hx with rfl | hx
    · exact foldl_min_le_init _ _
    · exact foldl_min_le_mem _ _ _ hx

theorem listMin_mem (l : List Nat) (hl : l ≠ []) : listMin l ∈ l := by
  cases l with
  | nil => exact absurd rfl hl
  | cons y ys =>
    rcases foldl_min_mem_or ys y with h | h
    · rw [listMin, h]
      exact List.mem_cons_self _ _
    · exact List.mem_cons_of_mem _ h

theorem init_le_foldl_max (l : List Nat) (a : Nat) : a ≤ l.foldl max a := by
  induction l generalizing a with
  | nil => exact le_rfl
  | cons x xs ih =>
    calc a ≤ max a x := Nat.le_max_left _ _
    _ ≤ xs.foldl max (max a x) := ih _
    _ = (x :: xs).foldl max a := rfl

theorem mem_le_foldl_max (l : List Nat) (a : Nat) (x : Nat) (hx : x ∈ l) :
    x ≤ l.foldl max a := by
  induction l generalizing a with
  | nil => cases hx
  | cons y ys ih =>
    rcases List.mem_cons.mp hx with rfl | hx
    · calc x ≤ max a x := Nat.le_max_right _ _
      _ ≤ ys.foldl max (max a x) := init_le_foldl_max _ _
    · exact ih _ hx

theorem le_listMax (l : List Nat) (x : Nat) (hx : x ∈ l) : x ≤ listMax l :=
  mem_le_foldl_max l 0 x hx

theorem getElem_ne_of_lt_indexOf {l : List Nat} {a : Nat} {j : Nat}
    (hj : j < l.length) (h : j < l.indexOf a) : l[j] ≠ a := by
  induction l generalizing j with
  | nil => cases hj
  | cons b t ih =>
    by_cases hba : b = a
    · rw [List.indexOf_cons_eq _ hba] at h
      cases h
    · cases j with
      | zero => simpa using hba
      | succ j =>
        rw [List.indexOf_cons_ne _ hba] at h
        exact ih (Nat.lt_of_succ_lt_succ hj) (Nat.lt_of_succ_lt_succ h)

theorem lruIndex_lt (s : CacheSet) (hne : s.lru_counter ≠ []) :
    lruIndex s < s.lru_counter.length :=
  List.indexOf_lt_length.mpr (listMin_mem _ hne)

theorem getElem_lruIndex (s : CacheSet) (hne : s.lru_counter ≠ [])
    (h : lruIndex s < s.lru_counter.length) :
    s.lru_counter[lruIndex s] = listMin s.lru_counter :=
  List.getElem_indexOf h

/-! ### The reachability invariant of a cache set -/

theorem wf_init (associativity : Nat) :
    (CacheSet.init associativity).WF associativity := by
  refine ⟨List.length_replicate _ _, List.length_replicate _ _, ?_⟩
  intro i h1 h2
  simp [CacheSet.init]

theorem hitIdx_some {lines : List CacheLine} {t i : Nat} (h : hitIdx lines t = some i) :
    ∃ hi : i < lines.length, lines[i].valid = true ∧ lines[i].tag = some t := by
  rw [hitIdx, List.findIdx?_eq_some_iff_getElem] at h
  obtain ⟨hi, hp, -⟩ := h
  refine ⟨hi, ?_, ?_⟩
  · exact (Bool.and_eq_true _ _ |>.mp hp).1
  · have := (Bool.and_eq_true _ _ |>.mp hp).2
    simpa using this

theorem wf_access {associativity : Nat} {s : CacheSet} (t : Nat)
    (h : s.WF associativity) : (s.access t).2.WF associativity := by
  obtain ⟨hl, hc, hinv⟩ := h
  cases hfind : hitIdx s.lines t with
  | none => simpa [CacheSet.access, hfind] using ⟨hl, hc, hinv⟩
  | some i =>
    obtain ⟨hi, hvalid, -⟩ := hitIdx_some hfind
    simp only [CacheSet.access, hfind]
    refine ⟨hl, by simpa using hc, ?_⟩
    intro j h1 h2
    simp only [List.length_set] at h2
    rw [List.getElem_set]
    split
    · next heq =>
      subst heq
      simp [hvalid]
    · next hne => exact hinv j h1 h2

theorem wf_replace {associativity : Nat} {s : CacheSet} (t : Nat)
    (h : s.WF associativity) : (s.replace t).WF associativity := by
  obtain ⟨hl, hc, hinv⟩ := h
  refine ⟨by simpa [CacheSet.replace] using hl, by simpa [CacheSet.replace] using hc, ?_⟩
  intro j h1 h2
  simp only [CacheSet.replace, List.length_set] at h1 h2
  simp only [CacheSet.replace]
  rw [List.getElem_set, List.getElem_set]
  split
  · next heq => simp
  · next hne => exact hinv j h1 h2

theorem reachable_wf {associativity : Nat} {s : CacheSet}
    (h : CacheSet.Reachable associativity s) : s.WF associativity := by
  induction h with
  | init => exact wf_init associativity
  | probe s t _ ih => exact wf_access t ih
  | insert s t _ ih => exact wf_replace t ih

/-! ### Claim theorems -/

/-- Claim C1: an insert into a set whose lines are all valid replaces the line
whose recency counter attains the minimum over the set (ties broken by lowest
line index: every strictly earlier counter is strictly larger), makes it
valid with the argument tag, and assigns it recency `current maximum + 1`,
all other lines and counters unchanged. -/
theorem replace_evicts_min_recency (s : CacheSet) (t : Nat)
    (hne : s.lru_counter ≠ [])
    (hvalid : ∀ line ∈ s.lines, line.valid = true) :
    ∃ h : lruIndex s < s.lru_counter.length,
      s.lru_counter[lruIndex s] = listMin s.lru_counter ∧
      (∀ j (hj : j < s.lru_counter.length), listMin s.lru_counter ≤ s.lru_counter[j]) ∧
      (∀ j (hj : j < s.lru_counter.length), j < lruIndex s →
        listMin s.lru_counter < s.lru_counter[j]) ∧
      (s.replace t).lines = s.lines.set (lruIndex s) { valid := true, tag := some t } ∧
      (s.replace t).lru_counter = s.lru_counter.set (lruIndex s) (listMax s.lru_counter + 1) := by
  refine ⟨lruIndex_lt s hne, getElem_lruIndex s hne _, ?_, ?_, rfl, rfl⟩
  · intro j hj
    exact listMin_le _ _ (List.getElem_mem _)
  · intro j hj hlt
    have hne' : s.lru_counter[j] ≠ listMin s.lru_counter :=
      getElem_ne_of_lt_indexOf hj hlt
    exact Nat.lt_of_le_of_ne (listMin_le _ _ (List.getElem_mem _)) (Ne.symm hne')

/-- Witness for claim C1 at a concrete all-valid set. -/
theorem replace_evicts_min_recency_witness :
    sampleSetC1.lru_counter ≠ [] ∧
    (∀ line ∈ sampleSetC1.lines, line.valid = true) ∧
    (∃ h : lruIndex sampleSetC1 < sampleSetC1.lru_counter.length,
      sampleSetC1.lru_counter[lruIndex sampleSetC1] = listMin sampleSetC1.lru_counter ∧
      (∀ j (hj : j < sampleSetC1.lru_counter.length),
        listMin sampleSetC1.lru_counter ≤ sampleSetC1.lru_counter[j]) ∧
      (∀ j (hj : j < sampleSetC1.lru_counter.length), j < lruIndex sampleSetC1 →
        listMin sampleSetC1.lru_counter < sampleSetC1.lru_counter[j]) ∧
      (sampleSetC1.replace 7).lines =
        sampleSetC1.lines.set (lruIndex sampleSetC1) { valid := true, tag := some 7 } ∧
      (sampleSetC1.replace 7).lru_counter =
        sampleSetC1.lru_counter.set (lruIndex sampleSetC1) (listMax sampleSetC1.lru_counter + 1)) :=
  ⟨by decide, by decide, replace_evicts_min_recency sampleSetC1 7 (by decide) (by decide)⟩

/-- Claim C10: in every set state reachable from the initial state (all lines
invalid, all counters 0) by any sequence of probes and inserts, a line is
invalid exactly when its recency counter is 0 — equivalently, every valid
line has recency at least 1. -/
theorem reachable_invalid_iff_recency_zero (associativity : Nat) (s : CacheSet)
    (h : CacheSet.Reachable associativity s) :
    ∀ i (h1 : i < s.lines.length) (h2 : i < s.lru_counter.length),
      (s.lines[i].valid = false ↔ s.lru_counter[i] = 0) :=
  (reachable_wf h).2.2

/-- Witness for claim C10 at the state reached by one insert into a fresh
two-way set. -/
theorem reachable_invalid_iff_recency_zero_witness :
    CacheSet.Reachable 2 ((CacheSet.init 2).replace 5) ∧
    ∀ i (h1 : i < ((CacheSet.init 2).replace 5).lines.length)
      (h2 : i < ((CacheSet.init 2).replace 5).lru_counter.length),
      (((CacheSet.init 2).replace 5).lines[i].valid = false ↔
        ((CacheSet.init 2).replace 5).lru_counter[i] = 0) :=
  ⟨CacheSet.Reachable.insert _ 5 CacheSet.Reachable.init,
    reachable_invalid_iff_recency_zero 2 _
      (CacheSet.Reachable.insert _ 5 CacheSet.Reachable.init)⟩

/-- Claim C2: inserting into a reachable set state that has at least one
invalid line fills an invalid line — the replaced slot is itself invalid, and
every other line (in particular every valid one) is untouched — regardless of
the recency values of the valid lines. -/
theorem insert_fills_invalid (associativity : Nat) (s : CacheSet) (t : Nat)
    (h : CacheSet.Reachable associativity s)
    (hinv : ∃ i, ∃ hi : i < s.lines.length, s.lines[i].valid = false) :
    ∃ hj : lruIndex s < s.lines.length,
      s.lines[lruIndex s].valid = false ∧
      (s.replace t).lines = s.lines.set (lruIndex s) { valid := true, tag := some t } ∧
      ∀ k, k ≠ lruIndex s → (s.replace t).lines[k]? = s.lines[k]? := by
  obtain ⟨hl, hc, hiff⟩ := reachable_wf h
  obtain ⟨i, hi, hival⟩ := hinv
  have hic : i < s.lru_counter.length := by omega
  have hzero : s.lru_counter[i] = 0 := (hiff i hi hic).mp hival
  have hmin0 : listMin s.lru_counter = 0 :=
    Nat.le_zero.mp (hzero ▸ listMin_le _ _ (List.getElem_mem _))
  have hcne : s.lru_counter ≠ [] := by
    intro hemp
    rw [hemp] at hic
    simp at hic
  have hlt : lruIndex s < s.lru_counter.length := lruIndex_lt s hcne
  have hltl : lruIndex s < s.lines.length := by omega
  have hval : s.lru_counter[lruIndex s] = listMin s.lru_counter := getElem_lruIndex s hcne hlt
  refine ⟨hltl, ?_, rfl, ?_⟩
  · exact (hiff _ hltl hlt).mpr (by rw [hval, hmin0])
  · intro k hk
    show (s.lines.set (lruIndex s) { valid := true, tag := some t })[k]? = s.lines[k]?
    exact List.getElem?_set_ne (Ne.symm hk)

/-- Witness for claim C2: after one insert into a fresh two-way set the
second line is still invalid, and a further insert fills it rather than
evicting the valid first line. -/
theorem insert_fills_invalid_witness :
    CacheSet.Reachable 2 ((CacheSet.init 2).replace 5) ∧
    (∃ i, ∃ hi : i < ((CacheSet.init 2).replace 5).lines.length,
      ((CacheSet.init 2).replace 5).lines[i].valid = false) ∧
    (∃ hj : lruIndex ((CacheSet.init 2).replace 5) <
        ((CacheSet.init 2).replace 5).lines.length,
      ((CacheSet.init 2).replace 5).lines[lruIndex ((CacheSet.init 2).replace 5)].valid
          = false ∧
      (((CacheSet.init 2).replace 5).replace 7).lines =
        ((CacheSet.init 2).replace 5).lines.set (lruIndex ((CacheSet.init 2).replace 5))
          { valid := true, tag := some 7 } ∧
      ∀ k, k ≠ lruIndex ((CacheSet.init 2).replace 5) →
        (((CacheSet.init 2).replace 5).replace 7).lines[k]? =
          ((CacheSet.init 2).replace 5).lines[k]?) :=
  ⟨CacheSet.Reachable.insert _ 5 CacheSet.Reachable.init,
   ⟨1, by decide, by decide⟩,
   insert_fills_invalid 2 _ 7 (CacheSet.Reachable.insert _ 5 CacheSet.Reachable.init)
     ⟨1, by decide, by decide⟩⟩

theorem hitIdx_none {lines : List CacheLine} {t : Nat} (h : hitIdx lines t = none) :
    ∀ i (hi : i < lines.length), ¬(lines[i].valid = true ∧ lines[i].tag = some t) := by
  rw [hitIdx, List.findIdx?_eq_none_iff] at h
  intro i hi hcon
  have hfalse := h lines[i] (List.getElem_mem _)
  rw [hcon.1, hcon.2] at hfalse
  simp at hfalse

theorem hitIdx_some_first {lines : List CacheLine} {t i : Nat} (h : hitIdx lines t = some i) :
    ∀ j (hj : j < lines.length), j < i →
      ¬(lines[j].valid = true ∧ lines[j].tag = some t) := by
  rw [hitIdx, List.findIdx?_eq_some_iff_getElem] at h
  obtain ⟨hi, -, hmin⟩ := h
  intro j hj hji hcon
  have hfalse := hmin j hji
  rw [hcon.1, hcon.2] at hfalse
  simp at hfalse

/-- Claim C6: probe (`CacheSet.access`) returns true exactly when some line
is valid and holds the tag; on a hit the first matching line keeps its
contents but gets recency `current maximum + 1` while everything else is
unchanged; on a miss the whole set is left unchanged. -/
theorem probe_spec (s : CacheSet) (t : Nat)
    (hlen : s.lines.length = s.lru_counter.length) :
    ((s.access t).1 = true ↔
      ∃ i, ∃ hi : i < s.lines.length,
        s.lines[i].valid = true ∧ s.lines[i].tag = some t) ∧
    ((s.access t).1 = false → (s.access t).2 = s) ∧
    ((s.access t).1 = true →
      ∃ i, ∃ hi : i < s.lines.length,
        s.lines[i].valid = true ∧ s.lines[i].tag = some t ∧
        (∀ j (hj : j < s.lines.length), j < i →
          ¬(s.lines[j].valid = true ∧ s.lines[j].tag = some t)) ∧
        (s.access t).2.lines = s.lines ∧
        (s.access t).2.lru_counter = s.lru_counter.set i (listMax s.lru_counter + 1) ∧
        ∃ hi2 : i < (s.access t).2.lru_counter.length,
          (s.access t).2.lru_counter[i] = listMax s.lru_counter + 1) := by
  cases hfind : hitIdx s.lines t with
  | none =>
    have hnone := hitIdx_none hfind
    refine ⟨?_, ?_, ?_⟩
    · simp only [CacheSet.access, hfind]
      constructor
      · intro hcon
        cases hcon
      · rintro ⟨i, hi, hv, ht⟩
        exact absurd ⟨hv, ht⟩ (hnone i hi)
    · intro
      simp [CacheSet.access, hfind]
    · simp only [CacheSet.access, hfind]
      intro hcon
      cases hcon
  | some i =>
    obtain ⟨hi, hv, ht⟩ := hitIdx_some hfind
    have hfirst := hitIdx_some_first hfind
    refine ⟨?_, ?_, ?_⟩
    · simp only [CacheSet.access, hfind]
      exact iff_of_true trivial ⟨i, hi, hv, ht⟩
    · simp only [CacheSet.access, hfind]
      intro hcon
      cases hcon
    · intro _
      have hi2 : i < (s.access t).2.lru_counter.length := by
        simp only [CacheSet.access, hfind, List.length_set]
        omega
      refine ⟨i, hi, hv, ht, hfirst, ?_, ?_, hi2, ?_⟩
      · simp [CacheSet.access, hfind]
      · simp [CacheSet.access, hfind]
      · simp only [CacheSet.access, hfind]
        rw [List.getElem_set, if_pos rfl]

/-- Witness for claim C6 at a one-way set holding tag 3, probed for 3. -/
theorem probe_spec_witness :
    ((CacheSet.init 1).replace 3).lines.length =
      ((CacheSet.init 1).replace 3).lru_counter.length ∧
    ((((CacheSet.init 1).replace 3).access 3).1 = true ↔
      ∃ i, ∃ hi : i < ((CacheSet.init 1).replace 3).lines.length,
        ((CacheSet.init 1).replace 3).lines[i].valid = true ∧
        ((CacheSet.init 1).replace 3).lines[i].tag = some 3) ∧
    ((((CacheSet.init 1).replace 3).access 3).1 = false →
      (((CacheSet.init 1).replace 3).access 3).2 = (CacheSet.init 1).replace 3) ∧
    ((((CacheSet.init 1).replace 3).access 3).1 = true →
      ∃ i, ∃ hi : i < ((CacheSet.init 1).replace 3).lines.length,
        ((CacheSet.init 1).replace 3).lines[i].valid = true ∧
        ((CacheSet.init 1).replace 3).lines[i].tag = some 3 ∧
        (∀ j (hj : j < ((CacheSet.init 1).replace 3).lines.length), j < i →
          ¬(((CacheSet.init 1).replace 3).lines[j].valid = true ∧
            ((CacheSet.init 1).replace 3).lines[j].tag = some 3)) ∧
        (((CacheSet.init 1).replace 3).access 3).2.lines =
          ((CacheSet.init 1).replace 3).lines ∧
        (((CacheSet.init 1).replace 3).access 3).2.lru_counter =
          ((CacheSet.init 1).replace 3).lru_counter.set i
            (listMax ((CacheSet.init 1).replace 3).lru_counter + 1) ∧
        ∃ hi2 : i < (((CacheSet.init 1).replace 3).access 3).2.lru_counter.length,
          (((CacheSet.init 1).replace 3).access 3).2.lru_counter[i] =
            listMax ((CacheSet.init 1).replace 3).lru_counter + 1) :=
  ⟨by decide, probe_spec ((CacheSet.init 1).replace 3) 3 (by decide)⟩

/-! ### Values of binary digit strings -/

theorem foldl_bits_eq (s : List Bool) (a : Nat) :
    s.foldl (fun acc b => 2 * acc + (if b then 1 else 0)) a =
      a * 2 ^ s.length + bitsVal s := by
  induction s generalizing a with
  | nil => simp [bitsVal]
  | cons x xs ih =>
    simp only [List.foldl_cons, bitsVal, List.length_cons]
    rw [ih, ih]
    ring

theorem bitsVal_append (s t : List Bool) :
    bitsVal (s ++ t) = bitsVal s * 2 ^ t.length + bitsVal t := by
  show List.foldl _ 0 (s ++ t) = _
  rw [List.foldl_append, foldl_bits_eq]
  rfl

theorem bitsVal_lt (s : List Bool) : bitsVal s < 2 ^ s.length := by
  induction s with
  | nil => simp [bitsVal]
  | cons x xs ih =>
    show List.foldl _ _ _ < _
    simp only [List.length_cons]
    rw [List.foldl_cons, foldl_bits_eq]
    have hb : (2 * 0 + if x then 1 else 0) ≤ 1 := by split <;> omega
    calc (2 * 0 + if x then 1 else 0) * 2 ^ xs.length + bitsVal xs
        ≤ 1 * 2 ^ xs.length + bitsVal xs :=
          Nat.add_le_add_right (Nat.mul_le_mul_right _ hb) _
      _ < 1 * 2 ^ xs.length + 2 ^ xs.length := by omega
      _ = 2 ^ (xs.length + 1) := by ring

theorem bitsVal_replicate_false (n : Nat) : bitsVal (List.replicate n false) = 0 := by
  induction n with
  | zero => rfl
  | succ n ih =>
    rw [List.replicate_succ]
    show List.foldl _ (2 * 0 + if false then 1 else 0) _ = 0
    simpa [bitsVal] using ih

theorem bitsVal_append_div (u v : List Bool) :
    bitsVal (u ++ v) / 2 ^ v.length = bitsVal u := by
  rw [bitsVal_append, Nat.mul_comm, Nat.mul_add_div (Nat.two_pow_pos _),
    Nat.div_eq_of_lt (bitsVal_lt v), Nat.add_zero]

theorem bitsVal_append_mod (u v : List Bool) :
    bitsVal (u ++ v) % 2 ^ v.length = bitsVal v := by
  rw [bitsVal_append, Nat.mul_comm, Nat.mul_add_mod, Nat.mod_eq_of_lt (bitsVal_lt v)]

theorem bitsVal_take (s : List Bool) (k : Nat) :
    bitsVal (s.take k) = bitsVal s / 2 ^ (s.length - k) := by
  have h := bitsVal_append_div (s.take k) (s.drop k)
  rw [List.take_append_drop, List.length_drop] at h
  exact h.symm

theorem bitsVal_drop (s : List Bool) (k : Nat) :
    bitsVal (s.drop k) = bitsVal s % 2 ^ (s.length - k) := by
  have h := bitsVal_append_mod (s.take k) (s.drop k)
  rw [List.take_append_drop, List.length_drop] at h
  exact h.symm

theorem natBitsAux_val : ∀ fuel n, n ≤ fuel → bitsVal (natBitsAux fuel n) = n := by
  intro fuel
  induction fuel with
  | zero =>
    intro n hn
    interval_cases n
    rfl
  | succ fuel ih =>
    intro n hn
    rw [natBitsAux]
    by_cases h0 : n = 0
    · subst h0
      simp [bitsVal]
    · rw [if_neg h0, bitsVal_append, ih (n / 2) (by omega)]
      have hone : bitsVal [decide (n % 2 = 1)] = n % 2 := by
        rcases Nat.mod_two_eq_zero_or_one n with h | h <;> simp [bitsVal, h]
      rw [hone, List.length_singleton, pow_one]
      omega

theorem natBitsAux_length : ∀ fuel n k, n ≤ fuel → n < 2 ^ k →
    (natBitsAux fuel n).length ≤ k := by
  intro fuel
  induction fuel with
  | zero =>
    intro n k hn _
    interval_cases n
    simp [natBitsAux]
  | succ fuel ih =>
    intro n k hn hk
    rw [natBitsAux]
    by_cases h0 : n = 0
    · simp [h0]
    · rw [if_neg h0, List.length_append, List.length_singleton]
      cases k with
      | zero =>
        rw [pow_zero] at hk
        omega
      | succ k =>
        have hdiv : n / 2 < 2 ^ k := by
          rw [pow_succ] at hk
          omega
        have := ih (n / 2) k (by omega) hdiv
        omega

theorem pyBin_val (n : Nat) : bitsVal (pyBin n) = n := by
  rw [pyBin]
  by_cases h0 : n = 0
  · simp [h0, bitsVal]
  · rw [if_neg h0]
    exact natBitsAux_val n n le_rfl

theorem pyBin_length_le {n k : Nat} (hk : 1 ≤ k) (h : n < 2 ^ k) :
    (pyBin n).length ≤ k := by
  rw [pyBin]
  by_cases h0 : n = 0
  · simpa [h0] using hk
  · rw [if_neg h0]
    exact natBitsAux_length n n k le_rfl h

theorem addr32_length {n : Nat} (h : n < 2 ^ 32) : (zfill32 (pyBin n)).length = 32 := by
  have hle : (pyBin n).length ≤ 32 := pyBin_length_le (by omega) h
  rw [zfill32, List.length_append, List.length_replicate]
  omega

theorem addr32_val (n : Nat) : bitsVal (zfill32 (pyBin n)) = n := by
  rw [zfill32, bitsVal_append, bitsVal_replicate_false, Nat.zero_mul, Nat.zero_add,
    pyBin_val]

theorem intBase2_of_ne_nil {s : List Bool} (h : s ≠ []) :
    intBase2 s = some (bitsVal s) := by
  cases s with
  | nil => exact absurd rfl h
  | cons x xs => rfl

theorem pyIdx_ofNat (len : Nat) (x : Nat) (h : x ≤ len) : pyIdx len (x : Int) = x := by
  rw [pyIdx, if_neg (by omega)]
  omega

/-! ### Geometry derivation on power-of-two inputs -/

theorem intLog2_two_pow (e : Nat) : intLog2 (2 ^ e) = e := by
  rw [intLog2_eq_log2, Nat.log2_eq_log_two, Nat.log_pow (by omega)]

theorem init_pow_eq (k a c : Nat) (hac : a + c ≤ k + 10) :
    Cache.init (2 ^ k) (2 ^ a) (2 ^ c) = some
      { cache_size := 2 ^ (k + 10)
        block_size := 2 ^ a
        associativity := 2 ^ c
        num_blocks := 2 ^ (k + 10 - a)
        num_sets := 2 ^ (k + 10 - a - c)
        index_length := k + 10 - a - c
        byte_offset_length := a
        tag_length := 32 - ((k + 10 - a - c : Nat) : Int) - ((a : Nat) : Int)
        cache_sets := List.replicate (2 ^ (k + 10 - a - c)) (CacheSet.init (2 ^ c)) } := by
  have hsize : 2 ^ k * 1024 = 2 ^ (k + 10) := by
    rw [pow_add]
    norm_num
  have hb : 2 ^ (k + 10) / 2 ^ a = 2 ^ (k + 10 - a) := Nat.pow_div (by omega) (by omega)
  have hs : 2 ^ (k + 10 - a) / 2 ^ c = 2 ^ (k + 10 - a - c) :=
    Nat.pow_div (by omega) (by omega)
  simp only [Cache.init, hsize, hb, hs]
  rw [if_neg (Nat.two_pow_pos a).ne', if_neg (Nat.two_pow_pos c).ne',
    if_neg (Nat.two_pow_pos (k + 10 - a - c)).ne', intLog2_two_pow, intLog2_two_pow]

/-- Claim C7: on a valid power-of-two geometry (capacity `2^k` KB, block
`2^a` bytes, associativity `2^c`, with the associativity dividing the block
count) the derived quantities are exact: the set count times associativity
times block size recovers the capacity, the offset and index widths are the
exact base-2 logarithms with no rounding, and the three field widths sum to
32. -/
theorem geometry_exact (k a c : Nat) (hac : a + c ≤ k + 10) :
    ∃ cache, Cache.init (2 ^ k) (2 ^ a) (2 ^ c) = some cache ∧
      cache.num_sets * cache.associativity * cache.block_size = cache.cache_size ∧
      cache.cache_size = 2 ^ k * 1024 ∧
      cache.byte_offset_length = a ∧
      cache.index_length = k + 10 - a - c ∧
      (2 : Nat) ^ cache.index_length = cache.num_sets ∧
      (2 : Nat) ^ cache.byte_offset_length = cache.block_size ∧
      (cache.byte_offset_length : Int) + (cache.index_length : Int) + cache.tag_length
        = 32 := by
  refine ⟨_, init_pow_eq k a c hac, ?_, ?_, rfl, rfl, rfl, rfl, ?_⟩
  · show 2 ^ (k + 10 - a - c) * 2 ^ c * 2 ^ a = 2 ^ (k + 10)
    rw [← pow_add, ← pow_add]
    congr 1
    omega
  · show 2 ^ (k + 10) = 2 ^ k * 1024
    rw [pow_add]
    norm_num
  · show ((a : Nat) : Int) + ((k + 10 - a - c : Nat) : Int) +
      (32 - ((k + 10 - a - c : Nat) : Int) - ((a : Nat) : Int)) = 32
    omega

/-- Witness for claim C7: 1 KB capacity, 4-byte blocks, 4-way. -/
theorem geometry_exact_witness :
    2 + 2 ≤ 0 + 10 ∧
    (∃ cache, Cache.init (2 ^ 0) (2 ^ 2) (2 ^ 2) = some cache ∧
      cache.num_sets * cache.associativity * cache.block_size = cache.cache_size ∧
      cache.cache_size = 2 ^ 0 * 1024 ∧
      cache.byte_offset_length = 2 ∧
      cache.index_length = 0 + 10 - 2 - 2 ∧
      (2 : Nat) ^ cache.index_length = cache.num_sets ∧
      (2 : Nat) ^ cache.byte_offset_length = cache.block_size ∧
      (cache.byte_offset_length : Int) + (cache.index_length : Int) + cache.tag_length
        = 32) :=
  ⟨by decide, geometry_exact 0 2 2 (by decide)⟩

theorem pyIdx_zero (len : Nat) : pyIdx len 0 = 0 := by
  rw [pyIdx, if_neg (by omega)]
  simp

/-- Claim C3 (amended): for every constructed power-of-two geometry in which
both the index field and the tag field are non-empty (`index_bits ≥ 1` and
`tag_bits ≥ 1`) and every address below `2^32`, the decomposition used by
`Cache.access` satisfies `tag = address >> (index_bits + offset_bits)` and
`set_index = (address >> offset_bits) & ((1 << index_bits) - 1)` — the layout
is `[tag | index | offset]` from most to least significant.  When the index
field is empty (`num_sets = 1`) the source fails instead of producing a set
index; see the counterexample. -/
theorem decode_fields (k a c addr : Nat) (hac : a + c ≤ k + 10)
    (hidx : 1 ≤ k + 10 - a - c) (htag : (k + 10 - a - c) + a ≤ 31)
    (haddr : addr < 2 ^ 32) :
    ∃ cache, Cache.init (2 ^ k) (2 ^ a) (2 ^ c) = some cache ∧
      cache.index_length = k + 10 - a - c ∧
      cache.byte_offset_length = a ∧
      intBase2 (cache.get_tag (zfill32 (pyBin addr))) =
        some (addr >>> (cache.index_length + cache.byte_offset_length)) ∧
      intBase2 (cache.get_set_index (zfill32 (pyBin addr))) =
        some ((addr >>> cache.byte_offset_length) &&&
          ((1 <<< cache.index_length) - 1)) := by
  have hlen : (zfill32 (pyBin addr)).length = 32 := addr32_length haddr
  have hval : bitsVal (zfill32 (pyBin addr)) = addr := addr32_val addr
  refine ⟨_, init_pow_eq k a c hac, rfl, rfl, ?_, ?_⟩
  · show intBase2 (pySlice (zfill32 (pyBin addr)) 0
      (32 - ((k + 10 - a - c : Nat) : Int) - ((a : Nat) : Int))) = _
    have hT : (32 - ((k + 10 - a - c : Nat) : Int) - ((a : Nat) : Int)) =
        ((32 - (k + 10 - a - c) - a : Nat) : Int) := by omega
    rw [hT, pySlice, pyIdx_zero, pyIdx_ofNat _ _ (by omega), List.drop_zero,
      intBase2_of_ne_nil (List.length_pos.mp (by rw [List.length_take, hlen]; omega)),
      bitsVal_take, hlen, hval]
    have he : 32 - (32 - (k + 10 - a - c) - a) = (k + 10 - a - c) + a := by omega
    rw [he, Nat.shiftRight_eq_div_pow]
  · show intBase2 (pySlice (zfill32 (pyBin addr))
      (32 - ((k + 10 - a - c : Nat) : Int) - ((a : Nat) : Int))
      ((32 - ((k + 10 - a - c : Nat) : Int) - ((a : Nat) : Int)) +
        ((k + 10 - a - c : Nat) : Int))) = _
    have hT : (32 - ((k + 10 - a - c : Nat) : Int) - ((a : Nat) : Int)) =
        ((32 - (k + 10 - a - c) - a : Nat) : Int) := by omega
    have hTI : ((32 - (k + 10 - a - c) - a : Nat) : Int) +
        ((k + 10 - a - c : Nat) : Int) = ((32 - a : Nat) : Int) := by omega
    rw [hT, hTI, pySlice, pyIdx_ofNat _ _ (by omega), pyIdx_ofNat _ _ (by omega)]
    have hulen : ((zfill32 (pyBin addr)).take (32 - a)).length = 32 - a := by
      rw [List.length_take, hlen]
      omega
    rw [intBase2_of_ne_nil (List.length_pos.mp
        (by rw [List.length_drop, hulen]; omega)),
      bitsVal_drop, hulen, bitsVal_take, hlen, hval]
    have he1 : 32 - (32 - a) = a := by omega
    have he2 : 32 - a - (32 - (k + 10 - a - c) - a) = k + 10 - a - c := by omega
    rw [he1, he2, Nat.shiftRight_eq_div_pow, Nat.one_shiftLeft,
      Nat.and_pow_two_sub_one_eq_mod]

/-- Witness for claim C3 (amended) at geometry 1 KB / 4-byte blocks / 4-way
and address 100. -/
theorem decode_fields_witness :
    2 + 2 ≤ 0 + 10 ∧ 1 ≤ 0 + 10 - 2 - 2 ∧ (0 + 10 - 2 - 2) + 2 ≤ 31 ∧
    100 < 2 ^ 32 ∧
    (∃ cache, Cache.init (2 ^ 0) (2 ^ 2) (2 ^ 2) = some cache ∧
      cache.index_length = 0 + 10 - 2 - 2 ∧
      cache.byte_offset_length = 2 ∧
      intBase2 (cache.get_tag (zfill32 (pyBin 100))) =
        some (100 >>> (cache.index_length + cache.byte_offset_length)) ∧
      intBase2 (cache.get_set_index (zfill32 (pyBin 100))) =
        some ((100 >>> cache.byte_offset_length) &&&
          ((1 <<< cache.index_length) - 1))) :=
  ⟨by decide, by decide, by decide, by decide,
    decode_fields 0 2 2 100 (by decide) (by decide) (by decide) (by decide)⟩

/-- Claim C3 counterexample: with the constructed geometry 1 KB / 256-byte
blocks / 4-way, `num_sets = 1` and `index_bits = 0`; on address 0 the claimed
formula gives `set_index = 0`, but the source produces no set index at all —
the empty index slice fails to parse (`int('', 2)` raises) and `Cache.access`
errors. -/
theorem decode_num_sets_one_fails :
    (Cache.init 1 256 4).map (fun cache =>
      (cache.num_sets, cache.index_length,
        intBase2 (cache.get_set_index (zfill32 (pyBin 0))),
        cache.access (zfill32 (pyBin 0)))) = some (1, 0, none, none) ∧
    (0 >>> 8) &&& ((1 <<< 0) - 1) = 0 := by
  exact ⟨rfl, rfl⟩

/-- Claim C4 (code bug): `Cache.__init__` performs no validation.  With the
non-power-of-two block size 3 it silently rounds `int(math.log(3, 2))` down
to 1 and builds a cache with `1024 // 3 = 341` sets instead of raising a
configuration error before any address is processed. -/
theorem init_accepts_non_power_of_two :
    (Cache.init 1 3 1).map (fun cache =>
      (cache.num_sets, cache.byte_offset_length, cache.index_length, cache.tag_length)) =
      some (341, 1, 8, 23) := rfl

/-- Claim C5 (code bug): on the valid geometry 1 KB / 256-byte blocks /
4-way, `num_sets = 1` and `index_bits = 0`, and `Cache.access` on address 0
does not map to set 0: it fails, because `get_set_index` returns the empty
string and `int('', 2)` raises `ValueError`. -/
theorem access_fails_when_num_sets_one :
    (Cache.init 1 256 4).map (fun cache =>
      (cache.num_sets, cache.index_length, cache.access (zfill32 (pyBin 0)))) =
      some (1, 0, none) := rfl

/-- Claim C8 (code bug): the 33-bit address `2^32` (out of the W = 32 bit
range) is not reported as an error: its 33-character bit string is sliced
with shifted field boundaries and the access completes silently as a miss,
and a simulation containing it counts it as an ordinary access. -/
theorem overwide_address_not_rejected :
    (Cache.init 1 4 4).map (fun cache =>
      (cache.access (zfill32 (pyBin (2 ^ 32)))).map (fun r => r.1)) =
      some (some false) ∧
    simulate_cache [2 ^ 32] 1 4 4 = some (0, 1) := by
  exact ⟨rfl, rfl⟩

/-- Claim C9: on every valid power-of-two geometry the empty address
sequence simulates without error to exactly `(hits, misses) = (0, 0)`. -/
theorem simulate_empty_trace (k a c : Nat) (hac : a + c ≤ k + 10) :
    simulate_cache [] (2 ^ k) (2 ^ a) (2 ^ c) = some (0, 0) := by
  simp only [simulate_cache, init_pow_eq k a c hac]
  rfl

/-- Witness for claim C9 at geometry 1 KB / 1-byte blocks / direct-mapped. -/
theorem simulate_empty_trace_witness :
    0 + 0 ≤ 0 + 10 ∧ simulate_cache [] (2 ^ 0) (2 ^ 0) (2 ^ 0) = some (0, 0) :=
  ⟨by decide, simulate_empty_trace 0 0 0 (by decide)⟩

example : (CacheSet.init 2).replace 5 =
    { lines := [{ valid := true, tag := some 5 }, { valid := false, tag := none }]
      lru_counter := [1, 0] } := by decide

example : ((CacheSet.init 2).replace 5).access 5 =
    (true, { lines := [{ valid := true, tag := some 5 }, { valid := false, tag := none }]
             lru_counter := [2, 0] }) := by decide

example : zfill32 (pyBin 5) = List.replicate 29 false ++ [true, false, true] := by decide

example : (Cache.init 1 4 4).map (fun c =>
    (c.num_sets, c.index_length, c.byte_offset_length, c.tag_length)) =
    some (64, 6, 2, 24) := by decide

end CacheSim
